import Mathlib

/-!
Formal model of the labeled-container alignment semantics demonstrated by this
repository's notebook (`03.03-Operations-in-Pandas.ipynb`): labeled vectors and
tables, index alignment on the sorted union of keys, missing-value markers,
optional fill values, unary label-preserving maps, and axis-selected
table/vector broadcasting.  The notebook only exercises these behaviours
through a third-party tabular library, so the containers and the alignment
engine themselves are modelled from the design document and checked against
the notebook's captured outputs.
-/

namespace WatchPet

/-- Modelled from the spec: a value slot holds either a numeric value or the
`MissingMarker` (represented as `none`), the distinguished marker for absent
data after alignment.  The repository's sources contain no container
implementation, only notebook calls into a tabular library. -/
abbrev Val := Option ℤ

/-- Modelled from the spec: `LabeledVector` is an ordered mapping from keys to
value slots; the key type is any decidable linearly ordered type. -/
structure LabeledVector (K : Type) where
  entries : List (K × Val)
  deriving DecidableEq

/-- Keys of a labeled vector, in storage order. -/
def LabeledVector.keys {K : Type} (A : LabeledVector K) : List K :=
  A.entries.map Prod.fst

/-- Association-list lookup used by both containers: the first entry whose key
matches wins; `none` means the key is absent. -/
def lookupEntries {K : Type} [DecidableEq K] (es : List (K × Val)) (k : K) : Option Val :=
  (es.find? (fun e => decide (e.1 = k))).map Prod.snd

/-- Lookup of a key in a labeled vector: `none` when the key is absent,
`some slot` when the key is present (the slot may itself be the marker). -/
def LabeledVector.lookup {K : Type} [DecidableEq K] (A : LabeledVector K) (k : K) :
    Option Val :=
  lookupEntries A.entries k

/-- Modelled from the spec: the key universe of the alignment engine — the
sorted union of the two operands' key lists, sorted by the natural ordering of
the key type, duplicates removed. -/
def sortedUnion {K : Type} [LinearOrder K] (xs ys : List K) : List K :=
  List.insertionSort (· ≤ ·) ((xs ++ ys).dedup)

/-- Modelled from the spec: reindexing lookup for a vector operand.  An entry
present with a numeric value keeps its value; an absent entry (or one holding
the marker) takes the fill value when one was supplied, else the marker. -/
def fillLookup {K : Type} [DecidableEq K] (fill : Val) (A : LabeledVector K) (k : K) : Val :=
  match A.lookup k with
  | some (some v) => some v
  | _ => fill

/-- Modelled from the spec: componentwise combination.  The elementwise
function is applied only when both slots are numeric; otherwise the output is
the marker, so `f` is never invoked with a marker operand. -/
def combine (f : ℤ → ℤ → ℤ) : Val → Val → Val
  | some a, some b => some (f a b)
  | _, _ => none

/-- Modelled from the spec: the alignment engine's binary operation on two
labeled vectors — reindex both operands onto the sorted key union, then apply
`f` componentwise, with an optional fill value. -/
def vecBinOp {K : Type} [LinearOrder K] (f : ℤ → ℤ → ℤ) (fill : Val)
    (A B : LabeledVector K) : LabeledVector K :=
  ⟨(sortedUnion A.keys B.keys).map
    (fun k => (k, combine f (fillLookup fill A k) (fillLookup fill B k)))⟩

/-- Modelled from the spec: unary elementwise dispatch on a vector — keys are
preserved verbatim, `g` is applied to numeric slots, markers pass through. -/
def vecMap {K : Type} (g : ℤ → ℤ) (A : LabeledVector K) : LabeledVector K :=
  ⟨A.entries.map (fun e => (e.1, e.2.map g))⟩

/-- Modelled from the spec: the method form of vector addition with an optional
explicit fill value (`A.add B fill`). -/
def LabeledVector.add {K : Type} [LinearOrder K] (A B : LabeledVector K) (fill : Val) :
    LabeledVector K :=
  vecBinOp (fun a b => a + b) fill A B

/-- Modelled from the spec: the operator form `A + B`, written out directly as
the notebook describes it — union of the indices, entries missing on either
side marked, no fill value available. -/
def vecAddOperator {K : Type} [LinearOrder K] (A B : LabeledVector K) : LabeledVector K :=
  ⟨(sortedUnion A.keys B.keys).map
    (fun k => (k, match A.lookup k, B.lookup k with
                  | some (some a), some (some b) => some (a + b)
                  | _, _ => none))⟩

section VectorLemmas

variable {K : Type} [DecidableEq K]

theorem lookupEntries_graph (g : K → Val) :
    ∀ (l : List K) (k : K), k ∈ l →
      lookupEntries (l.map (fun x => (x, g x))) k = some (g k)
  | [], k, h => absurd h (List.not_mem_nil k)
  | a :: l, k, h => by
    by_cases hak : a = k
    · subst hak
      simp [lookupEntries, List.find?_cons_of_pos]
    · have hk : k ∈ l := by
        rcases List.mem_cons.mp h with h1 | h1
        · exact absurd h1.symm hak
        · exact h1
      have : lookupEntries (l.map (fun x => (x, g x))) k = some (g k) :=
        lookupEntries_graph g l k hk
      simpa [lookupEntries, List.find?_cons_of_neg, hak] using this

theorem lookupEntries_not_mem :
    ∀ (es : List (K × Val)) (k : K), k ∉ es.map Prod.fst → lookupEntries es k = none
  | [], _, _ => rfl
  | e :: es, k, h => by
    have h1 : e.1 ≠ k := fun hek => h (by simp [hek.symm])
    have h2 : k ∉ es.map Prod.fst := fun hk => h (by simp [hk])
    simpa [lookupEntries, List.find?_cons_of_neg, h1] using
      lookupEntries_not_mem es k h2

theorem lookupEntries_some_mem {es : List (K × Val)} {k : K} {s : Val}
    (h : lookupEntries es k = some s) : k ∈ es.map Prod.fst := by
  unfold lookupEntries at h
  rcases hf : es.find? (fun e => decide (e.1 = k)) with _ | e
  · rw [hf] at h; simp at h
  · have hmem := List.mem_of_find?_eq_some hf
    have hek : e.1 = k := by simpa using List.find?_some hf
    exact hek ▸ List.mem_map_of_mem Prod.fst hmem

theorem lookupEntries_map_val (h : ℤ → ℤ) :
    ∀ (es : List (K × Val)) (k : K),
      lookupEntries (es.map (fun e => (e.1, e.2.map h))) k =
        (lookupEntries es k).map (fun s => s.map h)
  | [], _ => rfl
  | e :: es, k => by
    by_cases hek : e.1 = k
    · simp [lookupEntries, List.find?_cons_of_pos, hek]
    · simpa [lookupEntries, List.find?_cons_of_neg, hek] using
        lookupEntries_map_val h es k

end VectorLemmas

theorem keys_graph {K : Type} (g : K → Val) (l : List K) :
    (LabeledVector.mk (l.map (fun x => (x, g x)))).keys = l := by
  simp [LabeledVector.keys, List.map_map, Function.comp_def]

section UnionLemmas

variable {K : Type} [LinearOrder K]

theorem mem_sortedUnion {xs ys : List K} {k : K} :
    k ∈ sortedUnion xs ys ↔ k ∈ xs ∨ k ∈ ys := by
  simp [sortedUnion]

theorem sorted_sortedUnion (xs ys : List K) :
    (sortedUnion xs ys).Sorted (· ≤ ·) :=
  List.sorted_insertionSort _ _

theorem nodup_sortedUnion (xs ys : List K) : (sortedUnion xs ys).Nodup :=
  (List.perm_insertionSort _ _).nodup_iff.mpr (List.nodup_dedup _)

theorem sortedUnion_comm (xs ys : List K) : sortedUnion xs ys = sortedUnion ys xs := by
  have hperm : List.Perm (xs ++ ys).dedup (ys ++ xs).dedup :=
    (List.perm_ext_iff_of_nodup (List.nodup_dedup _) (List.nodup_dedup _)).mpr
      (fun a => by simp [List.mem_dedup, or_comm])
  exact List.eq_of_perm_of_sorted
    ((List.perm_insertionSort _ _).trans
      (hperm.trans (List.perm_insertionSort _ _).symm))
    (sorted_sortedUnion xs ys) (sorted_sortedUnion ys xs)

theorem vecBinOp_keys (f : ℤ → ℤ → ℤ) (fill : Val) (A B : LabeledVector K) :
    (vecBinOp f fill A B).keys = sortedUnion A.keys B.keys :=
  keys_graph _ _

theorem vecBinOp_lookup (f : ℤ → ℤ → ℤ) (fill : Val) (A B : LabeledVector K)
    {k : K} (hk : k ∈ sortedUnion A.keys B.keys) :
    (vecBinOp f fill A B).lookup k =
      some (combine f (fillLookup fill A k) (fillLookup fill B k)) :=
  lookupEntries_graph _ _ k hk

end UnionLemmas

/-- Modelled from the spec: `LabeledTable` — a matrix of value slots addressed
by row keys and column keys; conceptually a mapping from row key to a
`LabeledVector` over a common set of column keys. -/
structure LabeledTable (R C : Type) where
  rowKeys : List R
  colKeys : List C
  cells : List ((R × C) × Val)
  deriving DecidableEq

/-- Association-list lookup of a table cell by row and column key. -/
def cellAt {R C : Type} [DecidableEq R] [DecidableEq C]
    (es : List ((R × C) × Val)) (r : R) (c : C) : Option Val :=
  (es.find? (fun e => decide (e.1.1 = r) && decide (e.1.2 = c))).map Prod.snd

/-- Cell lookup in a labeled table: `none` when the (row, column) address is
absent, `some slot` when present. -/
def LabeledTable.cell {R C : Type} [DecidableEq R] [DecidableEq C]
    (T : LabeledTable R C) (r : R) (c : C) : Option Val :=
  cellAt T.cells r c

/-- Row-major grid of cells generated from a slot function. -/
def gridCells {R C : Type} (rs : List R) (cs : List C) (g : R → C → Val) :
    List ((R × C) × Val) :=
  (rs.map (fun r => cs.map (fun c => ((r, c), g r c)))).flatten

/-- Modelled from the spec: reindexing lookup for a table operand — a present
numeric cell keeps its value; an absent or marker cell takes the fill value
when supplied, else the marker. -/
def tFillLookup {R C : Type} [DecidableEq R] [DecidableEq C]
    (fill : Val) (T : LabeledTable R C) (r : R) (c : C) : Val :=
  match T.cell r c with
  | some (some v) => some v
  | _ => fill

/-- Modelled from the spec: the alignment engine's binary operation on two
labeled tables — alignment happens on both axes: sorted union of row keys and
of column keys, reindex both operands, combine componentwise.  It is total:
mismatched key sets are absorbed by the union-and-fill algorithm. -/
def tableBinOp {R C : Type} [LinearOrder R] [LinearOrder C]
    (f : ℤ → ℤ → ℤ) (fill : Val) (A B : LabeledTable R C) : LabeledTable R C :=
  let rs := sortedUnion A.rowKeys B.rowKeys
  let cs := sortedUnion A.colKeys B.colKeys
  ⟨rs, cs, gridCells rs cs
    (fun r c => combine f (tFillLookup fill A r c) (tFillLookup fill B r c))⟩

/-- Modelled from the spec: unary elementwise dispatch on a table — row and
column keys are preserved verbatim, `g` is applied to numeric slots, markers
pass through. -/
def tableMap {R C : Type} (g : ℤ → ℤ) (T : LabeledTable R C) : LabeledTable R C :=
  ⟨T.rowKeys, T.colKeys, T.cells.map (fun e => (e.1, e.2.map g))⟩

/-- Modelled from the spec: the error taxonomy of the engine. -/
inductive AlignError where
  | invalidAxis : AlignError
  | keyNotFound : AlignError
  deriving DecidableEq

/-- Modelled from the spec: broadcast of a vector (indexed by column keys)
against every row of a table — the `rows` axis case.  Rows are the table's
rows; columns are the sorted union of the table's columns and the vector's
keys. -/
def broadcastRows {K : Type} [LinearOrder K] (f : ℤ → ℤ → ℤ) (fill : Val)
    (T : LabeledTable K K) (v : LabeledVector K) : LabeledTable K K :=
  let cs := sortedUnion T.colKeys v.keys
  ⟨T.rowKeys, cs, gridCells T.rowKeys cs
    (fun r c => combine f (tFillLookup fill T r c) (fillLookup fill v c))⟩

/-- Modelled from the spec: broadcast of a vector (indexed by row keys)
against every column of a table — the `columns` axis case. -/
def broadcastColumns {K : Type} [LinearOrder K] (f : ℤ → ℤ → ℤ) (fill : Val)
    (T : LabeledTable K K) (v : LabeledVector K) : LabeledTable K K :=
  let rs := sortedUnion T.rowKeys v.keys
  ⟨rs, T.colKeys, gridCells rs T.colKeys
    (fun r c => combine f (tFillLookup fill T r c) (fillLookup fill v r))⟩

/-- Modelled from the spec: the table/vector binary entry point with its axis
selector; an unrecognized axis fails with `invalidAxis`. -/
def tableVecBinOp {K : Type} [LinearOrder K] (f : ℤ → ℤ → ℤ) (fill : Val)
    (axis : String) (T : LabeledTable K K) (v : LabeledVector K) :
    Except AlignError (LabeledTable K K) :=
  if axis = "rows" then Except.ok (broadcastRows f fill T v)
  else if axis = "columns" then Except.ok (broadcastColumns f fill T v)
  else Except.error AlignError.invalidAxis

/-- Modelled from the spec: the default axis selector is `rows`. -/
def defaultAxis : String := "rows"

/-- Modelled from the spec: well-formedness of a table — every stored cell is
addressed by declared keys, and every declared (row, column) address has a
cell (possibly holding the marker). -/
def LabeledTable.WF {R C : Type} [DecidableEq R] [DecidableEq C]
    (T : LabeledTable R C) : Prop :=
  (∀ e ∈ T.cells, e.1.1 ∈ T.rowKeys ∧ e.1.2 ∈ T.colKeys) ∧
  (∀ r ∈ T.rowKeys, ∀ c ∈ T.colKeys, (T.cell r c).isSome)

instance {R C : Type} [DecidableEq R] [DecidableEq C] (T : LabeledTable R C) :
    Decidable T.WF := by
  unfold LabeledTable.WF
  infer_instance

section TableLemmas

variable {R C : Type} [DecidableEq R] [DecidableEq C]

theorem cellAt_cons_of_pos {e : (R × C) × Val} {r : R} {c : C}
    (es : List ((R × C) × Val)) (h1 : e.1.1 = r) (h2 : e.1.2 = c) :
    cellAt (e :: es) r c = some e.2 := by
  rw [cellAt, List.find?_cons_of_pos _ (by simp [h1, h2])]
  rfl

theorem cellAt_cons_of_neg {e : (R × C) × Val} {r : R} {c : C}
    (es : List ((R × C) × Val)) (h : ¬(e.1.1 = r ∧ e.1.2 = c)) :
    cellAt (e :: es) r c = cellAt es r c := by
  rw [cellAt, List.find?_cons_of_neg _ (by simpa using h)]
  rfl

theorem cellAt_rowBlock_mem (r : R) (g : C → Val) :
    ∀ (cs : List C) (c : C), c ∈ cs →
      cellAt (cs.map (fun c => ((r, c), g c))) r c = some (g c)
  | [], c, h => absurd h (List.not_mem_nil c)
  | c0 :: cs, c, h => by
    by_cases hc : c0 = c
    · subst hc
      simp only [List.map_cons]
      rw [cellAt_cons_of_pos _ rfl rfl]
    · have hk : c ∈ cs := by
        rcases List.mem_cons.mp h with h1 | h1
        · exact absurd h1.symm hc
        · exact h1
      simp only [List.map_cons]
      rw [cellAt_cons_of_neg _ (by simp [hc])]
      exact cellAt_rowBlock_mem r g cs c hk

theorem cellAt_rowBlock_ne {r r0 : R} (hr : r0 ≠ r) (g : C → Val) :
    ∀ (cs : List C) (c : C), cellAt (cs.map (fun c => ((r0, c), g c))) r c = none
  | [], _ => rfl
  | c0 :: cs, c => by
    simp only [List.map_cons]
    rw [cellAt_cons_of_neg _ (by simp [hr])]
    exact cellAt_rowBlock_ne hr g cs c

theorem cellAt_append_of_none {es1 : List ((R × C) × Val)} {r : R} {c : C}
    (h : cellAt es1 r c = none) (es2 : List ((R × C) × Val)) :
    cellAt (es1 ++ es2) r c = cellAt es2 r c := by
  induction es1 with
  | nil => rfl
  | cons e es ih =>
    by_cases he : e.1.1 = r ∧ e.1.2 = c
    · exfalso
      rw [cellAt_cons_of_pos es he.1 he.2] at h
      simp at h
    · rw [cellAt_cons_of_neg es he] at h
      rw [List.cons_append, cellAt_cons_of_neg (es ++ es2) he]
      exact ih h

theorem cellAt_append_of_some {es1 : List ((R × C) × Val)} {r : R} {c : C} {s : Val}
    (h : cellAt es1 r c = some s) (es2 : List ((R × C) × Val)) :
    cellAt (es1 ++ es2) r c = some s := by
  induction es1 with
  | nil => simp [cellAt] at h
  | cons e es ih =>
    by_cases he : e.1.1 = r ∧ e.1.2 = c
    · rw [cellAt_cons_of_pos es he.1 he.2] at h
      rw [List.cons_append, cellAt_cons_of_pos (es ++ es2) he.1 he.2]
      exact h
    · rw [cellAt_cons_of_neg es he] at h
      rw [List.cons_append, cellAt_cons_of_neg (es ++ es2) he]
      exact ih h

theorem cellAt_gridCells (g : R → C → Val) :
    ∀ (rs : List R) (cs : List C) (r : R) (c : C), r ∈ rs → c ∈ cs →
      cellAt (gridCells rs cs g) r c = some (g r c)
  | [], _, r, _, hr, _ => absurd hr (List.not_mem_nil r)
  | r0 :: rs, cs, r, c, hr, hc => by
    have hgrid : gridCells (r0 :: rs) cs g =
        (cs.map (fun c => ((r0, c), g r0 c))) ++ gridCells rs cs g := by
      simp [gridCells]
    by_cases hrr : r0 = r
    · subst hrr
      rw [hgrid]
      exact cellAt_append_of_some (cellAt_rowBlock_mem r0 _ cs c hc) _
    · have hr1 : r ∈ rs := by
        rcases List.mem_cons.mp hr with h1 | h1
        · exact absurd h1.symm hrr
        · exact h1
      rw [hgrid, cellAt_append_of_none (cellAt_rowBlock_ne hrr _ cs c) _]
      exact cellAt_gridCells g rs cs r c hr1 hc

theorem cellAt_some_mem {es : List ((R × C) × Val)} {r : R} {c : C} {s : Val}
    (h : cellAt es r c = some s) : ((r, c), s) ∈ es := by
  unfold cellAt at h
  rcases hf : es.find? (fun e => decide (e.1.1 = r) && decide (e.1.2 = c)) with _ | e
  · rw [hf] at h; simp at h
  · have hmem := List.mem_of_find?_eq_some hf
    have hkey := List.find?_some hf
    simp only [Bool.and_eq_true, decide_eq_true_eq] at hkey
    rw [hf] at h
    simp only [Option.map_some', Option.some.injEq] at h
    have he : e = ((r, c), s) := by
      rcases e with ⟨⟨er, ec⟩, ev⟩
      simp only at hkey h
      rw [hkey.1, hkey.2, h]
    exact he ▸ hmem

theorem cellAt_map_val (h : ℤ → ℤ) :
    ∀ (es : List ((R × C) × Val)) (r : R) (c : C),
      cellAt (es.map (fun e => (e.1, e.2.map h))) r c =
        (cellAt es r c).map (fun s => s.map h)
  | [], _, _ => rfl
  | e :: es, r, c => by
    by_cases he : e.1.1 = r ∧ e.1.2 = c
    · simp only [List.map_cons]
      rw [cellAt_cons_of_pos _ (show ((e.1, e.2.map h) : (R × C) × Val).1.1 = r from he.1)
          (show ((e.1, e.2.map h) : (R × C) × Val).1.2 = c from he.2),
        cellAt_cons_of_pos es he.1 he.2]
      rfl
    · simp only [List.map_cons]
      rw [cellAt_cons_of_neg _ (by simpa using he), cellAt_cons_of_neg es he]
      exact cellAt_map_val h es r c

end TableLemmas

/-- Modelled from the spec: a named store of vector containers.  Operations
are stated over the store to express the lifecycle contract: an operation
reads its operands from the store and binds a freshly constructed result under
a new name, leaving every existing binding untouched. -/
abbrev VecStore (K : Type) := List (String × LabeledVector K)

/-- Lookup of a named vector in a store. -/
def getVec {K : Type} (st : VecStore K) (n : String) : Option (LabeledVector K) :=
  (st.find? (fun e => decide (e.1 = n))).map Prod.snd

/-- Modelled from the spec: perform the vector binary operation on the named
operands and bind the fresh result; the store is unchanged when an operand is
missing. -/
def runVecBinOp {K : Type} [LinearOrder K] (f : ℤ → ℤ → ℤ) (fill : Val)
    (a b res : String) (st : VecStore K) : VecStore K :=
  match getVec st a, getVec st b with
  | some A, some B => (res, vecBinOp f fill A B) :: st
  | _, _ => st

/-- Modelled from the spec: perform the unary vector operation on the named
operand and bind the fresh result. -/
def runVecMap {K : Type} (g : ℤ → ℤ) (src res : String) (st : VecStore K) :
    VecStore K :=
  match getVec st src with
  | some A => (res, vecMap g A) :: st
  | none => st

/-- Modelled from the spec: a named store of table containers. -/
abbrev TabStore (R C : Type) := List (String × LabeledTable R C)

/-- Lookup of a named table in a store. -/
def getTab {R C : Type} (st : TabStore R C) (n : String) : Option (LabeledTable R C) :=
  (st.find? (fun e => decide (e.1 = n))).map Prod.snd

/-- Modelled from the spec: perform the table binary operation on the named
operands and bind the fresh result. -/
def runTableBinOp {R C : Type} [LinearOrder R] [LinearOrder C]
    (f : ℤ → ℤ → ℤ) (fill : Val) (a b res : String) (st : TabStore R C) :
    TabStore R C :=
  match getTab st a, getTab st b with
  | some A, some B => (res, tableBinOp f fill A B) :: st
  | _, _ => st

/-- Modelled from the spec: perform the unary table operation on the named
operand and bind the fresh result. -/
def runTableMap {R C : Type} (g : ℤ → ℤ) (src res : String) (st : TabStore R C) :
    TabStore R C :=
  match getTab st src with
  | some A => (res, tableMap g A) :: st
  | none => st

section EngineLemmas

theorem getVec_cons_ne {K : Type} (X : LabeledVector K) (st : VecStore K)
    {n res : String} (hn : n ≠ res) : getVec ((res, X) :: st) n = getVec st n := by
  rw [getVec, List.find?_cons_of_neg _ (by simpa using Ne.symm hn)]
  rfl

theorem getTab_cons_ne {R C : Type} (X : LabeledTable R C) (st : TabStore R C)
    {n res : String} (hn : n ≠ res) : getTab ((res, X) :: st) n = getTab st n := by
  rw [getTab, List.find?_cons_of_neg _ (by simpa using Ne.symm hn)]
  rfl

theorem getVec_cons_self {K : Type} (X : LabeledVector K) (st : VecStore K)
    (res : String) : getVec ((res, X) :: st) res = some X := by
  rw [getVec, List.find?_cons_of_pos _ (by simp)]
  rfl

theorem getTab_cons_self {R C : Type} (X : LabeledTable R C) (st : TabStore R C)
    (res : String) : getTab ((res, X) :: st) res = some X := by
  rw [getTab, List.find?_cons_of_pos _ (by simp)]
  rfl

theorem combine_none_left (f : ℤ → ℤ → ℤ) (x : Val) : combine f none x = none := by
  cases x <;> rfl

theorem combine_none_right (f : ℤ → ℤ → ℤ) (x : Val) : combine f x none = none := by
  cases x <;> rfl

theorem cell_none_of_not_col {R C : Type} [DecidableEq R] [DecidableEq C]
    {T : LabeledTable R C} (hT : T.WF) {r : R} {c : C} (hc : c ∉ T.colKeys) :
    T.cell r c = none := by
  rcases h : T.cell r c with _ | s
  · rfl
  · exact absurd (hT.1 _ (cellAt_some_mem h)).2 hc

theorem broadcastRows_cell {K : Type} [LinearOrder K] (f : ℤ → ℤ → ℤ) (fill : Val)
    (T : LabeledTable K K) (v : LabeledVector K) {r c : K}
    (hr : r ∈ T.rowKeys) (hc : c ∈ sortedUnion T.colKeys v.keys) :
    (broadcastRows f fill T v).cell r c =
      some (combine f (tFillLookup fill T r c) (fillLookup fill v c)) :=
  cellAt_gridCells _ _ _ r c hr hc

theorem tableBinOp_cell {R C : Type} [LinearOrder R] [LinearOrder C]
    (f : ℤ → ℤ → ℤ) (fill : Val) (A B : LabeledTable R C) {r : R} {c : C}
    (hr : r ∈ sortedUnion A.rowKeys B.rowKeys)
    (hc : c ∈ sortedUnion A.colKeys B.colKeys) :
    (tableBinOp f fill A B).cell r c =
      some (combine f (tFillLookup fill A r c) (tFillLookup fill B r c)) :=
  cellAt_gridCells _ _ _ r c hr hc

end EngineLemmas

/-- Modelled from the spec: the notebook's concrete series `A = {0:2, 1:4, 2:6}`
(`pd.Series([2, 4, 6], index=[0, 1, 2])`). -/
def seriesA : LabeledVector ℤ := ⟨[(0, some 2), (1, some 4), (2, some 6)]⟩

/-- Modelled from the spec: the notebook's concrete series `B = {1:1, 2:3, 3:5}`
(`pd.Series([1, 3, 5], index=[1, 2, 3])`). -/
def seriesB : LabeledVector ℤ := ⟨[(1, some 1), (2, some 3), (3, some 5)]⟩

/-- Modelled from the spec: the notebook's concrete table `A`, columns
`[a, b]`, rows `[0, 1]`, values `[[10, 2], [16, 9]]`. -/
def tableA : LabeledTable ℤ Char :=
  ⟨[0, 1], ['a', 'b'],
   [((0, 'a'), some 10), ((0, 'b'), some 2),
    ((1, 'a'), some 16), ((1, 'b'), some 9)]⟩

/-- Modelled from the spec: the notebook's concrete table `B`, columns
`[b, a, c]`, rows `[0, 1, 2]`, values `[[5, 3, 1], [9, 7, 6], [4, 8, 5]]`. -/
def tableB : LabeledTable ℤ Char :=
  ⟨[0, 1, 2], ['b', 'a', 'c'],
   [((0, 'b'), some 5), ((0, 'a'), some 3), ((0, 'c'), some 1),
    ((1, 'b'), some 9), ((1, 'a'), some 7), ((1, 'c'), some 6),
    ((2, 'b'), some 4), ((2, 'a'), some 8), ((2, 'c'), some 5)]⟩

/-- C1: for every pair of labeled-vector operands and every elementwise
function and optional fill value, the key list of the binary-operation result
is exactly the sorted union of the operands' keys — it is sorted by the key
type's natural ordering, duplicate-free, and contains a key if and only if one
of the operands does. -/
theorem binaryOp_keys_are_sorted_union {K : Type} [LinearOrder K]
    (f : ℤ → ℤ → ℤ) (fill : Val) (A B : LabeledVector K) :
    (vecBinOp f fill A B).keys.Sorted (· ≤ ·) ∧
    (vecBinOp f fill A B).keys.Nodup ∧
    ∀ k : K, k ∈ (vecBinOp f fill A B).keys ↔ (k ∈ A.keys ∨ k ∈ B.keys) := by
  rw [vecBinOp_keys]
  exact ⟨sorted_sortedUnion _ _, nodup_sortedUnion _ _, fun _ => mem_sortedUnion⟩

/-- C2: for a key `k` absent from `A` but present in `B` with numeric value
`bv`, the aligned binary operation yields the missing marker at `k` when no
fill value is given, and yields `f fv bv` when the fill value `fv` is given;
the elementwise function (typed over numeric values only) is never invoked
with a marker operand. -/
theorem absent_key_missing_or_filled {K : Type} [LinearOrder K]
    (f : ℤ → ℤ → ℤ) (A B : LabeledVector K) (k : K) (bv fv : ℤ)
    (hA : k ∉ A.keys) (hB : B.lookup k = some (some bv)) :
    (vecBinOp f none A B).lookup k = some none ∧
    (vecBinOp f (some fv) A B).lookup k = some (some (f fv bv)) := by
  have hkB : k ∈ B.keys := lookupEntries_some_mem hB
  have hkU : k ∈ sortedUnion A.keys B.keys := mem_sortedUnion.mpr (Or.inr hkB)
  have hAl : A.lookup k = none := lookupEntries_not_mem _ _ hA
  constructor
  · rw [vecBinOp_lookup f none A B hkU]
    simp [fillLookup, hAl, hB, combine]
  · rw [vecBinOp_lookup f (some fv) A B hkU]
    simp [fillLookup, hAl, hB, combine]

/-- Witness for C2: key `3` is absent from `A = {0:2,1:4,2:6}` and present in
`B = {1:1,2:3,3:5}` with value `5`; without a fill value the sum at `3` is the
marker, and with fill value `0` it is `0 + 5 = 5`. -/
theorem absent_key_missing_or_filled_witness :
    (vecBinOp (fun a b => a + b) none seriesA seriesB).lookup 3 = some none ∧
    (vecBinOp (fun a b => a + b) (some 0) seriesA seriesB).lookup 3 = some (some 5) :=
  absent_key_missing_or_filled (fun a b => a + b) seriesA seriesB 3 5 0
    (by decide) (by decide)

/-- C3: on the notebook's concrete inputs `A = {0:2,1:4,2:6}` and
`B = {1:1,2:3,3:5}`, the operator form yields
`{0:marker, 1:5, 2:9, 3:marker}` and the method form with fill value `0`
yields `{0:2, 1:5, 2:9, 3:5}`, matching the captured notebook outputs. -/
theorem concrete_series_alignment :
    vecAddOperator seriesA seriesB =
      ⟨[(0, none), (1, some 5), (2, some 9), (3, none)]⟩ ∧
    seriesA.add seriesB (some 0) =
      ⟨[(0, some 2), (1, some 5), (2, some 9), (3, some 5)]⟩ := by
  decide

/-- C4: unary elementwise dispatch preserves all labels verbatim on both
container kinds — vector keys, table row keys and table column keys are
unchanged — and every lookup of the result is the operand's lookup with `g`
mapped under the marker-preserving `Option.map`, so `g` is applied to every
numeric value and markers pass through unchanged. -/
theorem unary_preserves_labels {K R C : Type} [DecidableEq K] [DecidableEq R]
    [DecidableEq C] (g : ℤ → ℤ) (A : LabeledVector K) (T : LabeledTable R C) :
    (vecMap g A).keys = A.keys ∧
    (∀ k : K, (vecMap g A).lookup k = (A.lookup k).map (fun s => s.map g)) ∧
    (tableMap g T).rowKeys = T.rowKeys ∧
    (tableMap g T).colKeys = T.colKeys ∧
    ∀ (r : R) (c : C), (tableMap g T).cell r c = (T.cell r c).map (fun s => s.map g) :=
  ⟨by simp [vecMap, LabeledVector.keys, List.map_map, Function.comp_def],
   fun k => lookupEntries_map_val g A.entries k,
   rfl, rfl,
   fun r c => cellAt_map_val g T.cells r c⟩

/-- C8: with addition as the elementwise function and fill value `0`, the
method-form operation is symmetric in its operands:
`A.add B (fill 0) = B.add A (fill 0)`. -/
theorem fill_add_symmetric {K : Type} [LinearOrder K] (A B : LabeledVector K) :
    A.add B (some 0) = B.add A (some 0) := by
  unfold LabeledVector.add vecBinOp
  congr 1
  rw [sortedUnion_comm B.keys A.keys]
  apply List.map_congr_left
  intro k _
  have hcomm : combine (fun a b => a + b) (fillLookup (some 0) A k)
        (fillLookup (some 0) B k) =
      combine (fun a b => a + b) (fillLookup (some 0) B k)
        (fillLookup (some 0) A k) := by
    rcases fillLookup (some 0) A k with _ | a <;>
      rcases fillLookup (some 0) B k with _ | b <;>
      simp [combine, Int.add_comm]
  rw [hcomm]

/-- C10: the method form without a fill value coincides with the operator
form: for all operands, `A.add B` with no fill value returns the same labeled
container as the directly-written union-and-mark operator `A + B`. -/
theorem method_form_matches_operator_form {K : Type} [LinearOrder K]
    (A B : LabeledVector K) : A.add B none = vecAddOperator A B := by
  unfold LabeledVector.add vecBinOp vecAddOperator
  congr 1
  apply List.map_congr_left
  intro k _
  have hval : combine (fun a b => a + b) (fillLookup none A k) (fillLookup none B k) =
      (match A.lookup k, B.lookup k with
       | some (some a), some (some b) => some (a + b)
       | _, _ => none) := by
    unfold fillLookup
    rcases A.lookup k with _ | s1 <;> rcases B.lookup k with _ | s2
    · rfl
    · rcases s2 with _ | b <;> rfl
    · rcases s1 with _ | a <;> rfl
    · rcases s1 with _ | a <;> rcases s2 with _ | b <;> rfl
  rw [hval]

/-- Modelled from the spec: a small concrete table used to exercise the
table/vector broadcast, rows `[0, 1]`, columns `[10, 11]`. -/
def bTab : LabeledTable ℤ ℤ :=
  ⟨[0, 1], [10, 11],
   [((0, 10), some 4), ((0, 11), some 8),
    ((1, 10), some 5), ((1, 11), some 0)]⟩

/-- Modelled from the spec: a small concrete vector used to exercise the
table/vector broadcast, keys `[10, 12]` — key `11` is absent from the vector
and key `12` is absent from the table. -/
def bVec : LabeledVector ℤ := ⟨[(10, some 4), (12, some 7)]⟩

/-- Modelled from the spec: the empty table and the empty vector, used to
exercise the axis selector. -/
def emptyTab : LabeledTable ℤ ℤ := ⟨[], [], []⟩

/-- Modelled from the spec: the empty vector companion of `emptyTab`. -/
def emptyVec : LabeledVector ℤ := ⟨[]⟩

/-- C5: broadcasting a vector against a table along the `rows` axis (the
engine's default axis selector): the row keys are the table's rows; the
result's columns are the union of the table's columns and the vector's keys;
at every table row and every column shared with numeric values on both sides
the result is `f table[r][c] vector[c]`; and with no fill value, a column
present in only one operand holds the missing marker. -/
theorem table_vector_row_broadcast {K : Type} [LinearOrder K]
    (f : ℤ → ℤ → ℤ) (T : LabeledTable K K) (v : LabeledVector K) :
    tableVecBinOp f none defaultAxis T v = Except.ok (broadcastRows f none T v) ∧
    (broadcastRows f none T v).rowKeys = T.rowKeys ∧
    (∀ c : K, c ∈ (broadcastRows f none T v).colKeys ↔ (c ∈ T.colKeys ∨ c ∈ v.keys)) ∧
    (∀ (r c : K) (x y : ℤ), r ∈ T.rowKeys → c ∈ T.colKeys →
      T.cell r c = some (some x) → v.lookup c = some (some y) →
      (broadcastRows f none T v).cell r c = some (some (f x y))) ∧
    (∀ r c : K, r ∈ T.rowKeys → c ∈ T.colKeys → c ∉ v.keys →
      (broadcastRows f none T v).cell r c = some none) ∧
    (∀ r c : K, T.WF → r ∈ T.rowKeys → c ∈ v.keys → c ∉ T.colKeys →
      (broadcastRows f none T v).cell r c = some none) := by
  refine ⟨rfl, rfl, fun c => mem_sortedUnion, ?_, ?_, ?_⟩
  · intro r c x y hr hc hcell hv
    rw [broadcastRows_cell f none T v hr (mem_sortedUnion.mpr (Or.inl hc))]
    simp [tFillLookup, fillLookup, hcell, hv, combine]
  · intro r c hr hc hcv
    rw [broadcastRows_cell f none T v hr (mem_sortedUnion.mpr (Or.inl hc))]
    have hvl : v.lookup c = none := lookupEntries_not_mem _ _ hcv
    simp [fillLookup, hvl, combine_none_right]
  · intro r c hWF hr hcv hc
    rw [broadcastRows_cell f none T v hr (mem_sortedUnion.mpr (Or.inr hcv))]
    have hTc : T.cell r c = none := cell_none_of_not_col hWF hc
    simp [tFillLookup, hTc, combine_none_left]

/-- Witness for C5: on `bTab` and `bVec` with subtraction, the shared column
`10` holds `4 - 4`, the table-only column `11` holds the marker, and the
vector-only column `12` holds the marker, on row `0`. -/
theorem table_vector_row_broadcast_witness :
    (broadcastRows (fun a b => a - b) none bTab bVec).cell 0 10 = some (some (4 - 4)) ∧
    (broadcastRows (fun a b => a - b) none bTab bVec).cell 0 11 = some none ∧
    (broadcastRows (fun a b => a - b) none bTab bVec).cell 0 12 = some none :=
  have h := table_vector_row_broadcast (fun a b => a - b) bTab bVec
  ⟨h.2.2.2.1 0 10 4 4 (by decide) (by decide) (by decide) (by decide),
   h.2.2.2.2.1 0 11 (by decide) (by decide) (by decide),
   h.2.2.2.2.2 0 12 (by decide) (by decide) (by decide) (by decide)⟩

/-- C6: the table/table binary operation never fails on mismatched key sets or
shapes — every (row, column) address of the result's key universe carries a
cell — and on the notebook's concrete tables `A` (columns `[a,b]`, rows
`[0,1]`) and `B` (columns `[b,a,c]`, rows `[0,1,2]`), `A + B` has sorted
columns `[a,b,c]`, rows `[0,1,2]`, and row `2` entirely missing. -/
theorem table_alignment_never_fails {R C : Type} [LinearOrder R] [LinearOrder C]
    (f : ℤ → ℤ → ℤ) (fill : Val) (A B : LabeledTable R C) :
    (∀ (r : R) (c : C), r ∈ (tableBinOp f fill A B).rowKeys →
      c ∈ (tableBinOp f fill A B).colKeys →
      ((tableBinOp f fill A B).cell r c).isSome) ∧
    (tableBinOp (fun a b => a + b) none tableA tableB).colKeys = ['a', 'b', 'c'] ∧
    (tableBinOp (fun a b => a + b) none tableA tableB).rowKeys = [0, 1, 2] ∧
    ∀ c ∈ (tableBinOp (fun a b => a + b) none tableA tableB).colKeys,
      (tableBinOp (fun a b => a + b) none tableA tableB).cell 2 c = some none := by
  refine ⟨?_, by decide, by decide, by decide⟩
  intro r c hr hc
  rw [tableBinOp_cell f fill A B hr hc]
  rfl

/-- Witness for C6: on the notebook's tables the cell at row `2`, column `c`
exists, and holds the marker at column `a`. -/
theorem table_alignment_never_fails_witness :
    ((tableBinOp (fun a b => a + b) none tableA tableB).cell 2 'c').isSome ∧
    (tableBinOp (fun a b => a + b) none tableA tableB).cell 2 'a' = some none :=
  have h := table_alignment_never_fails (fun a b => a + b) none tableA tableB
  ⟨h.1 2 'c' (by decide) (by decide), h.2.2.2 'a' (by decide)⟩

/-- C7: the table/vector entry point fails with `invalidAxis` exactly when the
axis selector is neither `rows` nor `columns`; for either recognized axis it
never returns the `invalidAxis` error. -/
theorem invalid_axis_rejected {K : Type} [LinearOrder K] (f : ℤ → ℤ → ℤ)
    (fill : Val) (axis : String) (T : LabeledTable K K) (v : LabeledVector K) :
    (axis ≠ "rows" → axis ≠ "columns" →
      tableVecBinOp f fill axis T v = Except.error AlignError.invalidAxis) ∧
    (axis = "rows" ∨ axis = "columns" →
      tableVecBinOp f fill axis T v ≠ Except.error AlignError.invalidAxis) := by
  constructor
  · intro h1 h2
    unfold tableVecBinOp
    rw [if_neg h1, if_neg h2]
  · rintro (h | h) <;> subst h <;> unfold tableVecBinOp
    · rw [if_pos rfl]
      intro hcon
      cases hcon
    · rw [if_neg (by decide), if_pos rfl]
      intro hcon
      cases hcon

/-- Witness for C7: the unrecognized axis selector `diagonal` is rejected with
`invalidAxis`, while the recognized selector `columns` is not. -/
theorem invalid_axis_rejected_witness :
    tableVecBinOp (fun a b => a + b) none "diagonal" emptyTab emptyVec =
      Except.error AlignError.invalidAxis ∧
    tableVecBinOp (fun a b => a + b) none "columns" emptyTab emptyVec ≠
      Except.error AlignError.invalidAxis :=
  ⟨(invalid_axis_rejected (fun a b => a + b) none "diagonal" emptyTab emptyVec).1
      (by decide) (by decide),
   (invalid_axis_rejected (fun a b => a + b) none "columns" emptyTab emptyVec).2
      (Or.inr rfl)⟩

/-- C9: operations never mutate their operands.  In the store model, running a
binary or unary operation on vectors or tables leaves every previously bound
container untouched (any name other than the fresh result name reads exactly
as before) and binds the result to a freshly constructed container computed
from the operand values alone. -/
theorem operations_never_mutate_operands {K R C : Type} [LinearOrder K]
    [LinearOrder R] [LinearOrder C] (f : ℤ → ℤ → ℤ) (g : ℤ → ℤ) (fill : Val)
    (a b res n : String) (stv : VecStore K) (stt : TabStore R C)
    (A B : LabeledVector K) (TA TB : LabeledTable R C) (hn : n ≠ res)
    (hA : getVec stv a = some A) (hB : getVec stv b = some B)
    (hTA : getTab stt a = some TA) (hTB : getTab stt b = some TB) :
    getVec (runVecBinOp f fill a b res stv) n = getVec stv n ∧
    getVec (runVecMap g a res stv) n = getVec stv n ∧
    getTab (runTableBinOp f fill a b res stt) n = getTab stt n ∧
    getTab (runTableMap g a res stt) n = getTab stt n ∧
    getVec (runVecBinOp f fill a b res stv) res = some (vecBinOp f fill A B) ∧
    getVec (runVecMap g a res stv) res = some (vecMap g A) ∧
    getTab (runTableBinOp f fill a b res stt) res = some (tableBinOp f fill TA TB) ∧
    getTab (runTableMap g a res stt) res = some (tableMap g TA) := by
  have e1 : runVecBinOp f fill a b res stv = (res, vecBinOp f fill A B) :: stv := by
    simp only [runVecBinOp, hA, hB]
  have e2 : runVecMap g a res stv = (res, vecMap g A) :: stv := by
    simp only [runVecMap, hA]
  have e3 : runTableBinOp f fill a b res stt = (res, tableBinOp f fill TA TB) :: stt := by
    simp only [runTableBinOp, hTA, hTB]
  have e4 : runTableMap g a res stt = (res, tableMap g TA) :: stt := by
    simp only [runTableMap, hTA]
  exact ⟨e1 ▸ getVec_cons_ne _ _ hn, e2 ▸ getVec_cons_ne _ _ hn,
    e3 ▸ getTab_cons_ne _ _ hn, e4 ▸ getTab_cons_ne _ _ hn,
    e1 ▸ getVec_cons_self _ _ res, e2 ▸ getVec_cons_self _ _ res,
    e3 ▸ getTab_cons_self _ _ res, e4 ▸ getTab_cons_self _ _ res⟩

/-- Witness for C9: in a concrete store binding `x` and `y`, adding them into
`z` leaves `x` bound to its original container and binds `z` to the fresh
result, for vectors and for tables alike. -/
theorem operations_never_mutate_operands_witness :
    getVec (runVecBinOp (fun a b => a + b) none "x" "y" "z"
        [("x", seriesA), ("y", seriesB)]) "x" =
      getVec [("x", seriesA), ("y", seriesB)] "x" ∧
    getTab (runTableBinOp (fun a b => a + b) none "x" "y" "z"
        [("x", tableA), ("y", tableB)]) "x" =
      getTab [("x", tableA), ("y", tableB)] "x" ∧
    getVec (runVecBinOp (fun a b => a + b) none "x" "y" "z"
        [("x", seriesA), ("y", seriesB)]) "z" =
      some (vecBinOp (fun a b => a + b) none seriesA seriesB) :=
  have h := operations_never_mutate_operands (fun a b => a + b) (fun x => x) none
    "x" "y" "z" "x" [("x", seriesA), ("y", seriesB)] [("x", tableA), ("y", tableB)]
    seriesA seriesB tableA tableB (by decide) rfl rfl rfl rfl
  ⟨h.1, h.2.2.1, h.2.2.2.2.1⟩

end WatchPet
